import Mathlib

/-!
Shallow embedding of `src/RNN_vs_LSTM.py` (character-level name
classifier).  Python floats are modelled exactly as rationals; the
external numerical and Unicode library kernels (`exp`, `log`,
`unicodedata.normalize`, `unicodedata.category`) are taken as function
parameters, since they are supplied by external libraries and not
implemented in the repository.  Fallible Python code (exceptions such as
`IndexError`, `NameError`, and `torch.topk`'s range check) is modelled
with `Option`.
-/

namespace NameClassifier

/-- Python `string.ascii_letters`: the 26 lowercase followed by the 26
uppercase ASCII letters. -/
def ascii_letters : String :=
  "abcdefghijklmnopqrstuvwxyzABCDEFGHIJKLMNOPQRSTUVWXYZ"

/-- Line 23: `all_letters = string.ascii_letters + " .,;'"`.
The appended string holds five characters: space, period, comma,
semicolon and apostrophe (written `\x27`). -/
def all_letters : String := ascii_letters ++ " .,;\x27"

/-- Line 24: `n_letters = len(all_letters)`. -/
def n_letters : Nat := all_letters.length

/-- Python generator filter in `unicodeToAscii` (lines 28-32): keep a
character when it is not a combining mark (`category(c) != 'Mn'`) and it
occurs in `all_letters`.  `isMn` is the external `unicodedata.category
(c) == 'Mn'` test. -/
def keepChar (isMn : Char → Bool) (c : Char) : Bool :=
  !(isMn c) && all_letters.toList.contains c

/-- Lines 27-32: `unicodeToAscii` — NFD-decompose the string
(`unicodedata.normalize('NFD', s)`, modelled by the external per-character
canonical decomposition `nfd` concatenated over the string), then keep
only non-combining characters that are members of `all_letters`. -/
def unicodeToAscii (nfd : Char → List Char) (isMn : Char → Bool)
    (s : List Char) : List Char :=
  (s.flatMap nfd).filter (keepChar isMn)

/-- Python `str.find` scan: first index of `c`, or `none`. -/
def pyFindAux (c : Char) : List Char → Option Nat
  | [] => none
  | x :: xs => if x = c then some 0 else (pyFindAux c xs).map (· + 1)

/-- Lines 73-74: `letterToIndex(letter) = all_letters.find(letter)`.
Python `str.find` returns the first index of the character, and `-1`
when the character does not occur — it does not raise. -/
def letterToIndex (letter : Char) : Int :=
  match pyFindAux letter all_letters.toList with
  | some i => (i : Int)
  | none => -1

/-- One row of the line tensor: `torch.zeros(n_letters)` followed by
`row[idx] = 1`.  PyTorch resolves a negative index `idx` by adding the
length (so `-1` denotes the last cell), exactly as modelled by
`wrapped`.  `letterToIndex` only produces indices in `[-1, n_letters)`,
which are always in range after wrapping. -/
def oneHotRow (idx : Int) : List ℚ :=
  let wrapped : Int := if idx < 0 then idx + (n_letters : Int) else idx
  (List.replicate n_letters (0 : ℚ)).set wrapped.toNat 1

/-- Lines 84-88: `lineToTensor` — a `<len(line) x 1 x n_letters>` tensor
of one-hot rows; the middle batch dimension of size 1 is collapsed, so
the result is one row per character. -/
def lineToTensor (line : String) : List (List ℚ) :=
  line.toList.map (fun c => oneHotRow (letterToIndex c))

/-- Python `str.strip()`: drop whitespace from both ends. -/
def pyStrip (s : List Char) : List Char :=
  ((s.dropWhile Char.isWhitespace).reverse.dropWhile Char.isWhitespace).reverse

/-- Python `str.split('\n')` with an explicit separator: no collapsing of
adjacent separators, and the result always has at least one piece (the
split of the empty string is `[""]`). -/
def pySplitNl : List Char → List (List Char)
  | [] => [[]]
  | c :: rest =>
    let r := pySplitNl rest
    if c = '\n' then [] :: r
    else
      match r with
      | [] => [[c]]
      | h :: t => (c :: h) :: t

/-- Lines 41-43: `readLines` — read the file contents, strip, split into
lines, and normalize each line with `unicodeToAscii`. -/
def readLines (nfd : Char → List Char) (isMn : Char → Bool)
    (contents : List Char) : List (List Char) :=
  (pySplitNl (pyStrip contents)).map (unicodeToAscii nfd isMn)

/-- Lines 159-160: `randomChoice(l) = l[random.randint(0, len(l) - 1)]`,
with the random draw `i` made explicit; out-of-range access is a Python
`IndexError`, modelled by `none`. -/
def randomChoice {α : Type} (l : List α) (i : Nat) : Option α :=
  l[i]?

/-! ## The RNN classifier (lines 104-125) -/

/-- Line 124: `n_hidden = 128`. -/
def n_hidden : Nat := 128

/-- Parameters of the `RNN` module (line 110-111): weight matrix and bias
of the `i2h` and `i2o` linear layers.  A weight matrix is a list of rows,
one row per output cell. -/
structure RNNP where
  i2h_w : List (List ℚ)
  i2h_b : List ℚ
  i2o_w : List (List ℚ)
  i2o_b : List ℚ
deriving DecidableEq, Repr

/-- Dot product of two vectors. -/
def dot (a b : List ℚ) : ℚ := (List.zipWith (· * ·) a b).sum

/-- `nn.Linear`: `W x + b`, one dot product per output row. -/
def linear (w : List (List ℚ)) (b : List ℚ) (x : List ℚ) : List ℚ :=
  List.zipWith (fun row bi => dot row x + bi) w b

/-- `nn.LogSoftmax(dim=1)`: `x_i - log (sum_j exp x_j)`, with the external
transcendental kernels `expF` and `logF` as parameters. -/
def logSoftmax (expF logF : ℚ → ℚ) (xs : List ℚ) : List ℚ :=
  xs.map (fun x => x - logF ((xs.map expF).sum))

/-- Lines 114-119: `RNN.forward` — concatenate input and hidden state,
apply `i2h` to get the next hidden state and `i2o` followed by
`LogSoftmax` to get the output. -/
def rnnForward (expF logF : ℚ → ℚ) (p : RNNP) (input hidden : List ℚ) :
    List ℚ × List ℚ :=
  let combined := input ++ hidden
  let hidden2 := linear p.i2h_w p.i2h_b combined
  let output := logSoftmax expF logF (linear p.i2o_w p.i2o_b combined)
  (output, hidden2)

/-- Lines 121-122: `initHidden` — zero vector of width `n_hidden`. -/
def initHidden : List ℚ := List.replicate n_hidden 0

/-- Line 179: `learning_rate = 0.005`. -/
def learning_rate : ℚ := 5 / 1000

/-- Vector update `p.data.add_(-learning_rate, grad)`:
`p - learning_rate * grad`, elementwise. -/
def sgdVec (p g : List ℚ) : List ℚ :=
  List.zipWith (fun a b => a - learning_rate * b) p g

/-- Matrix form of `sgdVec`. -/
def sgdMat (p g : List (List ℚ)) : List (List ℚ) :=
  List.zipWith sgdVec p g

/-- Lines 193-194: the parameter update loop
`for p in rnn.parameters(): p.data.add_(-learning_rate, p.grad.data)`. -/
def sgdStep (p grad : RNNP) : RNNP :=
  { i2h_w := sgdMat p.i2h_w grad.i2h_w
    i2h_b := sgdVec p.i2h_b grad.i2h_b
    i2o_w := sgdMat p.i2o_w grad.i2o_w
    i2o_b := sgdVec p.i2o_b grad.i2o_b }

/-- Lines 263-269: `evaluate(line_tensor)` — hidden state starts at
`initHidden`, the loop rebinds `output, hidden = rnn(line_tensor[i],
hidden)` once per character, and the final `output` is returned.  The
accumulator's first component models the Python local `output`, unbound
(`none`) before the first iteration — returning it for an empty tensor
is the Python `NameError`. -/
def evaluate (expF logF : ℚ → ℚ) (p : RNNP) (lt : List (List ℚ)) :
    Option (List ℚ) :=
  (lt.foldl
    (fun acc input =>
      let oh := rnnForward expF logF p input acc.2
      (some oh.1, oh.2))
    ((none : Option (List ℚ)), initHidden)).1

/-- State-passing form of `evaluate`: the body of `evaluate` (lines
263-269) contains no assignment to the parameter state, so the threaded
parameter state comes back unchanged. -/
def evaluateState (expF logF : ℚ → ℚ) (p : RNNP) (lt : List (List ℚ)) :
    Option (List ℚ) × RNNP :=
  (evaluate expF logF p lt, p)

/-- Lines 181-196: `train(category_tensor, line_tensor)` — the same
per-character forward loop as `evaluate` (written out separately because
it is separate code in the source), followed by
`loss = NLLLoss(output, target)` (which is `-output[target]`, an error
when `output` is unbound or `target` out of range) and the gradient
update.  The gradient produced by `loss.backward()` is computed by the
external autograd engine and is therefore a parameter.  Returns
`(output, loss, updated parameters)`. -/
def train (expF logF : ℚ → ℚ) (p grad : RNNP) (target : Nat)
    (lt : List (List ℚ)) : Option (List ℚ × ℚ × RNNP) :=
  match (lt.foldl
    (fun acc input =>
      let oh := rnnForward expF logF p input acc.2
      (some oh.1, oh.2))
    ((none : Option (List ℚ)), initHidden)).1 with
  | none => none
  | some out =>
    match out[target]? with
    | none => none
    | some v => some (out, -v, sgdStep p grad)

/-! ## Top-k prediction (lines 304-317) -/

/-- Comparison used by `torch.topk(..., largest=True, sorted=True)` on
(index, value) pairs: greater-or-equal value first. -/
def geVal (a b : Nat × ℚ) : Prop := b.2 ≤ a.2

instance : DecidableRel geVal := fun a b => inferInstanceAs (Decidable (b.2 ≤ a.2))

instance : IsTotal (Nat × ℚ) geVal := ⟨fun a b => le_total b.2 a.2⟩

instance : IsTrans (Nat × ℚ) geVal := ⟨fun _ _ _ h1 h2 => le_trans h2 h1⟩

/-- Line 310: `output.topk(n_predictions, 1, True)` — the `k` largest
entries with their indices, sorted by descending value.  `torch.topk`
raises a `RuntimeError` when `k` exceeds the size of the selected
dimension, modelled by `none`. -/
def topk (k : Nat) (xs : List ℚ) : Option (List (Nat × ℚ)) :=
  if k ≤ xs.length then some ((xs.enum.insertionSort geVal).take k) else none

/-- Lines 313-317: the loop building `predictions` — for each of the top
pairs, look the category name up in `all_categories` (an `IndexError`
when out of range, modelled by `none`) and append `[value, name]`. -/
def mapScoreCat (cats : List String) : List (Nat × ℚ) → Option (List (ℚ × String))
  | [] => some []
  | (i, v) :: rest =>
    match cats[i]? with
    | none => none
    | some cname => (mapScoreCat cats rest).map (fun tl => (v, cname) :: tl)

/-- Lines 304-317: `predict(input_line, n_predictions)` — run `evaluate`
on the encoded line, take the top `k` scores, and pair each with its
category name. -/
def predict (expF logF : ℚ → ℚ) (p : RNNP) (cats : List String)
    (input_line : String) (k : Nat) : Option (List (ℚ × String)) :=
  (evaluate expF logF p (lineToTensor input_line)).bind fun out =>
  (topk k out).bind fun pairs =>
  mapScoreCat cats pairs

/-! ## Confusion matrix (lines 259, 272-281) -/

/-- Replace the element at one position, leaving the list unchanged when
the position is out of range. -/
def modifyAt {α : Type} (f : α → α) : Nat → List α → List α
  | _, [] => []
  | 0, x :: xs => f x :: xs
  | n + 1, x :: xs => x :: modifyAt f n xs

/-- Line 259: `confusion = torch.zeros(n_categories, n_categories)`. -/
def zerosMatrix (n : Nat) : List (List ℚ) :=
  List.replicate n (List.replicate n (0 : ℚ))

/-- Line 277: `confusion[category_i][guess_i] += 1`. -/
def bumpCell (m : List (List ℚ)) (t g : Nat) : List (List ℚ) :=
  modifyAt (fun row => modifyAt (fun x => x + 1) g row) t m

/-- Lines 272-277: the accumulation loop over `n_confusion` sampled
trials; each trial contributes its (true category index, guessed
category index) pair, here given as the list `samples`. -/
def accumConfusion (n : Nat) (samples : List (Nat × Nat)) : List (List ℚ) :=
  samples.foldl (fun m s => bumpCell m s.1 s.2) (zerosMatrix n)

/-- Lines 280-281: `confusion[i] = confusion[i] / confusion[i].sum()`,
for every row. -/
def normalizeRows (m : List (List ℚ)) : List (List ℚ) :=
  m.map (fun row => row.map (fun x => x / row.sum))

/-- Shape invariant for the confusion matrix: `n` rows of `n` cells. -/
def goodShape (n : Nat) (m : List (List ℚ)) : Prop :=
  m.length = n ∧ ∀ row ∈ m, row.length = n

/-- A concrete parameter state with the shapes the script constructs
(`RNN(n_letters, n_hidden, n_categories)` with `n_categories = 2`, as in
the spec's synthetic two-category corpus): `i2h` is `128 x (57 + 128)`,
`i2o` is `2 x (57 + 128)`, all weights zero. -/
def exampleParams : RNNP :=
  { i2h_w := List.replicate 128 (List.replicate 185 (0 : ℚ))
    i2h_b := List.replicate 128 0
    i2o_w := List.replicate 2 (List.replicate 185 (0 : ℚ))
    i2o_b := List.replicate 2 0 }

/-- A concrete two-category `all_categories` list. -/
def exampleCats : List String := ["English", "Spanish"]

/-! ## Helper lemmas -/

theorem pyFindAux_eq_none {c : Char} :
    ∀ {l : List Char}, c ∉ l → pyFindAux c l = none := by
  intro l
  induction l with
  | nil => intro _; rfl
  | cons x xs ih =>
    intro h
    have hx : ¬ x = c := fun he => h (he ▸ List.mem_cons_self x xs)
    have hxs : c ∉ xs := fun hm => h (List.mem_cons_of_mem x hm)
    simp [pyFindAux, hx, ih hxs]

theorem pyFindAux_of_mem {c : Char} :
    ∀ {l : List Char}, c ∈ l → ∃ i, pyFindAux c l = some i ∧ i < l.length := by
  intro l
  induction l with
  | nil => intro h; exact absurd h (List.not_mem_nil c)
  | cons x xs ih =>
    intro h
    by_cases hx : x = c
    · exact ⟨0, by simp [pyFindAux, hx], by simp⟩
    · have hxs : c ∈ xs := by
        rcases List.mem_cons.mp h with he | hm
        · exact absurd he.symm hx
        · exact hm
      rcases ih hxs with ⟨i, hi, hlt⟩
      exact ⟨i + 1, by simp [pyFindAux, hx, hi], by simpa using Nat.succ_lt_succ hlt⟩

theorem letterToIndex_of_not_mem {c : Char} (h : c ∉ all_letters.toList) :
    letterToIndex c = -1 := by
  unfold letterToIndex
  rw [pyFindAux_eq_none h]

theorem letterToIndex_of_mem {c : Char} (h : c ∈ all_letters.toList) :
    ∃ j : Nat, letterToIndex c = (j : Int) ∧ j < n_letters := by
  rcases pyFindAux_of_mem h with ⟨i, hi, hlt⟩
  exact ⟨i, by unfold letterToIndex; rw [hi], hlt⟩

theorem mem_alphabet_of_mem_unicodeToAscii (nfd : Char → List Char)
    (isMn : Char → Bool) (s : List Char) {c : Char}
    (h : c ∈ unicodeToAscii nfd isMn s) : c ∈ all_letters.toList := by
  unfold unicodeToAscii at h
  have hp := (List.mem_filter.mp h).2
  have hc : all_letters.toList.contains c = true := by
    have := Bool.and_elim_right hp
    simpa using this
  exact List.elem_iff.mp hc

/-! ## Claim theorems -/

/-- C2 counterexample: the fixed alphabet has 57 characters, not 55 — the
string appended to the 52 ASCII letters also holds a semicolon. -/
theorem c2_alphabet_counterexample :
    all_letters.length = 57 ∧ (';' ∈ all_letters.toList) ∧
      ¬ all_letters.length = 55 := by decide

/-- C2 (amended): the fixed alphabet contains exactly 57 distinct
characters — the 52 upper- and lower-case ASCII letters plus space,
period, comma, semicolon, and apostrophe.  Membership is characterized
over the whole ASCII range, and every alphabet character is ASCII. -/
theorem c2_alphabet_amended :
    all_letters.length = 57 ∧ all_letters.toList.Nodup ∧
    (all_letters.toList.filter Char.isAlpha).length = 52 ∧
    (∀ c ∈ all_letters.toList, c.toNat < 128) ∧
    (∀ n : Nat, n < 128 →
      (Char.ofNat n ∈ all_letters.toList ↔
        ((Char.ofNat n).isAlpha ∨
          Char.ofNat n ∈ [' ', '.', ',', ';', Char.ofNat 39]))) := by decide

/-- C2 witness: the semicolon (code 59) is a member of the alphabet. -/
theorem c2_alphabet_witness : Char.ofNat 59 ∈ all_letters.toList :=
  (c2_alphabet_amended.2.2.2.2 59 (by decide)).mpr (by decide)

/-- C3 counterexample: for `'é'`, a character outside the fixed alphabet,
`letterToIndex` does not fail — it returns `-1` (Python `str.find`), and
`lineToTensor` then uses `-1` as a (negative, wrapping) index, silently
producing a one-hot vector with its 1 at the last position (index 56). -/
theorem c3_letter_to_index_counterexample :
    ('é' ∉ all_letters.toList) ∧ letterToIndex 'é' = -1 ∧
    lineToTensor "é" = [(List.replicate n_letters (0 : ℚ)).set 56 1] := by
  decide

/-- C3 (amended): for every character outside the fixed alphabet,
`letterToIndex` silently returns `-1` instead of failing, and
`lineToTensor` uses that value as a negative index, so the resulting
"one-hot" vector carries its 1 at the last alphabet position (index 56,
the apostrophe) rather than raising an error. -/
theorem c3_letter_to_index_amended (c : Char) (h : c ∉ all_letters.toList) :
    letterToIndex c = -1 ∧
    lineToTensor (String.mk [c]) = [(List.replicate n_letters (0 : ℚ)).set 56 1] := by
  have h1 : letterToIndex c = -1 := letterToIndex_of_not_mem h
  refine ⟨h1, ?_⟩
  show List.map _ (String.mk [c]).toList = _
  rw [show (String.mk [c]).toList = [c] from rfl]
  simp only [List.map]
  rw [h1]
  decide

/-- C3 witness: the amended statement at the concrete character `'é'`. -/
theorem c3_letter_to_index_witness :
    letterToIndex 'é' = -1 ∧
    lineToTensor (String.mk ['é']) = [(List.replicate n_letters (0 : ℚ)).set 56 1] :=
  c3_letter_to_index_amended 'é' (by decide)

/-- C4: for a name whose characters all lie in the fixed alphabet,
`lineToTensor` yields one row per character, and row `i` is a vector of
length `n_letters` whose entries are 1 exactly at index
`letterToIndex` of the i-th character and 0 elsewhere. -/
theorem c4_line_to_tensor (line : String)
    (h : ∀ c ∈ line.toList, c ∈ all_letters.toList) :
    (lineToTensor line).length = line.length ∧
    ∀ i, (hi : i < line.toList.length) →
      ∃ j : Nat, letterToIndex (line.toList.get ⟨i, hi⟩) = (j : Int) ∧
        j < n_letters ∧
        (lineToTensor line)[i]? = some (oneHotRow (j : Int)) ∧
        (oneHotRow (j : Int)).length = n_letters ∧
        ∀ t, t < n_letters →
          (oneHotRow (j : Int))[t]? = some (if t = j then (1 : ℚ) else 0) := by
  constructor
  · show (List.map _ line.toList).length = line.length
    rw [List.length_map]
    rfl
  · intro i hi
    have hc : line.toList.get ⟨i, hi⟩ ∈ line.toList := List.get_mem line.toList i hi
    rcases letterToIndex_of_mem (h _ hc) with ⟨j, hj, hjlt⟩
    have hj2 : letterToIndex line.toList[i] = (j : Int) := hj
    refine ⟨j, hj, hjlt, ?_, ?_, ?_⟩
    · show (List.map _ line.toList)[i]? = _
      rw [List.getElem?_map, List.getElem?_eq_getElem hi]
      rw [Option.map_some', hj2]
    · show ((List.replicate n_letters (0 : ℚ)).set _ 1).length = n_letters
      rw [List.length_set, List.length_replicate]
    · intro t ht
      show ((List.replicate n_letters (0 : ℚ)).set
        (if (j : Int) < 0 then (j : Int) + (n_letters : Int) else (j : Int)).toNat 1)[t]? = _
      have hnn : ¬ ((j : Int) < 0) := by omega
      rw [if_neg hnn, Int.toNat_natCast, List.getElem?_set]
      by_cases hjt : j = t
      · subst hjt
        simp [List.length_replicate, hjlt]
      · rw [if_neg hjt, List.getElem?_replicate, if_pos ht,
          if_neg (fun he => hjt he.symm)]

/-- C4 witness: the encoder contract holds at the concrete name
`"Jones"`. -/
theorem c4_line_to_tensor_witness :
    (lineToTensor "Jones").length = "Jones".length ∧
    ∀ i, (hi : i < "Jones".toList.length) →
      ∃ j : Nat, letterToIndex ("Jones".toList.get ⟨i, hi⟩) = (j : Int) ∧
        j < n_letters ∧
        (lineToTensor "Jones")[i]? = some (oneHotRow (j : Int)) ∧
        (oneHotRow (j : Int)).length = n_letters ∧
        ∀ t, t < n_letters →
          (oneHotRow (j : Int))[t]? = some (if t = j then (1 : ℚ) else 0) :=
  c4_line_to_tensor "Jones" (by decide)

/-- C7: every character of the output of `unicodeToAscii` is a member of
the fixed alphabet, and every character outside the alphabet is dropped
(it never occurs in the output), for any decomposition and
combining-mark tables. -/
theorem c7_normalization_invariant (nfd : Char → List Char)
    (isMn : Char → Bool) (s : List Char) :
    (∀ c ∈ unicodeToAscii nfd isMn s, c ∈ all_letters.toList) ∧
    (∀ c, c ∉ all_letters.toList → c ∉ unicodeToAscii nfd isMn s) := by
  refine ⟨fun c hc => mem_alphabet_of_mem_unicodeToAscii nfd isMn s hc, ?_⟩
  intro c hna hc
  exact hna (mem_alphabet_of_mem_unicodeToAscii nfd isMn s hc)

/-- C7 witness: with identity decomposition and no combining marks, a
surviving character of `"ab!"` is in the alphabet. -/
theorem c7_normalization_invariant_witness : 'a' ∈ all_letters.toList :=
  (c7_normalization_invariant (fun c => [c]) (fun _ => false)
    ['a', 'b', '!']).1 'a' (by decide)

/-- C8: normalization is idempotent, given that the external Unicode
tables decompose every alphabet character to itself and classify no
alphabet character as a combining mark (true of NFD on ASCII). -/
theorem c8_normalization_idempotent (nfd : Char → List Char)
    (isMn : Char → Bool)
    (hn : ∀ c ∈ all_letters.toList, nfd c = [c])
    (hm : ∀ c ∈ all_letters.toList, isMn c = false)
    (s : List Char) :
    unicodeToAscii nfd isMn (unicodeToAscii nfd isMn s)
      = unicodeToAscii nfd isMn s := by
  have hmem : ∀ c ∈ unicodeToAscii nfd isMn s, c ∈ all_letters.toList :=
    fun c hc => mem_alphabet_of_mem_unicodeToAscii nfd isMn s hc
  have hflat : (unicodeToAscii nfd isMn s).flatMap nfd
      = unicodeToAscii nfd isMn s := by
    generalize hgen : unicodeToAscii nfd isMn s = t at hmem
    clear hgen
    induction t with
    | nil => rfl
    | cons x xs ih =>
      have hx : nfd x = [x] := hn x (hmem x (List.mem_cons_self x xs))
      have hxs := ih (fun c hc => hmem c (List.mem_cons_of_mem x hc))
      simp [List.flatMap_cons, hx, hxs]
  show ((unicodeToAscii nfd isMn s).flatMap nfd).filter (keepChar isMn) = _
  rw [hflat]
  apply List.filter_eq_self.mpr
  intro c hc
  have hca := hmem c hc
  unfold keepChar
  rw [hm c hca]
  simp only [Bool.not_false, Bool.true_and]
  exact List.elem_iff.mpr hca

/-- C8 witness: idempotence at the concrete string `"Garcia!"` with
identity Unicode tables. -/
theorem c8_normalization_idempotent_witness :
    unicodeToAscii (fun c => [c]) (fun _ => false)
        (unicodeToAscii (fun c => [c]) (fun _ => false) "Garcia!".toList)
      = unicodeToAscii (fun c => [c]) (fun _ => false) "Garcia!".toList :=
  c8_normalization_idempotent (fun c => [c]) (fun _ => false)
    (fun _ _ => rfl) (fun _ _ => rfl) "Garcia!".toList

theorem pySplitNl_length_pos (l : List Char) : 0 < (pySplitNl l).length := by
  induction l with
  | nil => simp [pySplitNl]
  | cons c rest ih =>
    simp only [pySplitNl]
    by_cases hc : c = '\n'
    · simp [hc]
    · rw [if_neg hc]
      cases hsp : pySplitNl rest with
      | nil => simp
      | cons a t => simp

/-- C9: every loaded category list is nonempty — `read().strip().split('\n')`
always yields at least one line (possibly the empty string for an empty
file), so `randomChoice` over a category's name list never draws from an
empty list. -/
theorem c9_loader_nonempty (nfd : Char → List Char) (isMn : Char → Bool)
    (contents : List Char) :
    0 < (readLines nfd isMn contents).length ∧
    (randomChoice (readLines nfd isMn contents) 0).isSome = true := by
  have hlen : 0 < (readLines nfd isMn contents).length := by
    unfold readLines
    rw [List.length_map]
    exact pySplitNl_length_pos _
  refine ⟨hlen, ?_⟩
  unfold randomChoice
  rw [List.getElem?_eq_getElem hlen]
  rfl

/-- C10: for the empty input string the encoded tensor is empty, the
per-character loop in `evaluate` runs zero times, so the Python local
`output` is never bound (`none`, a `NameError`) and `predict` fails as
well, rather than producing a default distribution. -/
theorem c10_empty_input_fails (expF logF : ℚ → ℚ) (p : RNNP)
    (cats : List String) (k : Nat) :
    lineToTensor "" = [] ∧
    evaluate expF logF p (lineToTensor "") = none ∧
    predict expF logF p cats "" k = none :=
  ⟨rfl, rfl, rfl⟩

/-- C6: `evaluate` computes exactly the output of the forward pass inside
`train` — `train`'s result projected to its output component agrees with
`evaluate` wherever `train` is defined (it additionally fails when the
loss target is out of range), and the state-passing form of `evaluate`
leaves the model parameters unchanged, while `train` ends with
`sgdStep`.  The gradient used by `train`'s update is a parameter
(external autograd); `evaluate` takes none. -/
theorem c6_evaluate_is_train_forward (expF logF : ℚ → ℚ) (p grad : RNNP)
    (target : Nat) (lt : List (List ℚ)) :
    ((train expF logF p grad target lt).map (fun r => r.1))
      = (evaluate expF logF p lt).bind
          (fun out => (out[target]?).map (fun _ => out)) ∧
    (evaluateState expF logF p lt).2 = p := by
  constructor
  · unfold train evaluate
    cases hfold : (lt.foldl
        (fun acc input =>
          let oh := rnnForward expF logF p input acc.2
          (some oh.1, oh.2))
        ((none : Option (List ℚ)), initHidden)).1 with
    | none => rfl
    | some out =>
      cases hidx : out[target]? with
      | none => simp [hidx]
      | some v => simp [hidx]
  · rfl

theorem length_modifyAt {α : Type} (f : α → α) :
    ∀ (j : Nat) (l : List α), (modifyAt f j l).length = l.length := by
  intro j l
  induction l generalizing j with
  | nil => cases j <;> rfl
  | cons x xs ih =>
    cases j with
    | zero => rfl
    | succ n => simpa [modifyAt] using ih n

theorem getElem?_modifyAt {α : Type} (f : α → α) :
    ∀ (j : Nat) (l : List α) (i : Nat),
      (modifyAt f j l)[i]? = if i = j then (l[i]?).map f else l[i]? := by
  intro j l
  induction l generalizing j with
  | nil => intro i; cases j <;> simp [modifyAt]
  | cons x xs ih =>
    intro i
    cases j with
    | zero =>
      cases i with
      | zero => simp [modifyAt]
      | succ m => simp [modifyAt]
    | succ n =>
      cases i with
      | zero => simp [modifyAt]
      | succ m => simpa [modifyAt] using ih n m

theorem sum_modifyAt_add_one (j : Nat) (l : List ℚ) (hj : j < l.length) :
    (modifyAt (fun x => x + 1) j l).sum = l.sum + 1 := by
  induction l generalizing j with
  | nil => simp at hj
  | cons x xs ih =>
    cases j with
    | zero => simp [modifyAt, List.sum_cons]; ring
    | succ n =>
      have hn : n < xs.length := by simpa using hj
      simp only [modifyAt, List.sum_cons, ih n hn]
      ring

theorem goodShape_zerosMatrix (n : Nat) : goodShape n (zerosMatrix n) := by
  constructor
  · simp [zerosMatrix]
  · intro row hrow
    rw [List.eq_of_mem_replicate hrow]
    simp

theorem goodShape_bumpCell {n : Nat} {m : List (List ℚ)}
    (hm : goodShape n m) (t g : Nat) : goodShape n (bumpCell m t g) := by
  constructor
  · rw [bumpCell, length_modifyAt]
    exact hm.1
  · intro row hrow
    rcases hm with ⟨hl, hrows⟩
    rcases List.mem_iff_getElem.mp hrow with ⟨i, hi, hget⟩
    unfold bumpCell at hget hi
    rw [length_modifyAt] at hi
    have := getElem?_modifyAt (fun row => modifyAt (fun x => x + 1) g row) t m i
    rw [List.getElem?_eq_getElem hi] at this
    by_cases hit : i = t
    · rw [if_pos hit, Option.map_some'] at this
      have hmem : m[i] ∈ m := List.getElem_mem hi
      have : (modifyAt (fun row => modifyAt (fun x => x + 1) g row) t m)[i]?
          = some (modifyAt (fun x => x + 1) g m[i]) := this
      rw [List.getElem?_eq_getElem (by rwa [length_modifyAt])] at this
      have hrow_eq : (modifyAt (fun row => modifyAt (fun x => x + 1) g row) t m)[i]
          = modifyAt (fun x => x + 1) g m[i] := Option.some.inj this
      rw [← hget, hrow_eq, length_modifyAt]
      exact hrows _ hmem
    · rw [if_neg hit] at this
      rw [List.getElem?_eq_getElem (by rwa [length_modifyAt])] at this
      have hrow_eq : (modifyAt (fun row => modifyAt (fun x => x + 1) g row) t m)[i]
          = m[i] := Option.some.inj this
      rw [← hget, hrow_eq]
      exact hrows _ (List.getElem_mem hi)

theorem goodShape_foldl {n : Nat} {m : List (List ℚ)} (hm : goodShape n m) :
    ∀ samples : List (Nat × Nat),
      goodShape n (samples.foldl (fun m s => bumpCell m s.1 s.2) m) := by
  intro samples
  induction samples generalizing m with
  | nil => exact hm
  | cons s ss ih =>
    rw [List.foldl_cons]
    exact ih (goodShape_bumpCell hm s.1 s.2)

theorem rowAt_foldl_sum {n : Nat} :
    ∀ (samples : List (Nat × Nat)) (m : List (List ℚ)) (_ : goodShape n m)
      (_ : ∀ s ∈ samples, s.1 < n ∧ s.2 < n) (i : Nat) (_ : i < n),
      ((samples.foldl (fun m s => bumpCell m s.1 s.2) m)[i]?.getD []).sum
        = (m[i]?.getD []).sum
          + (samples.countP (fun s => s.1 == i) : ℚ) := by
  intro samples
  induction samples with
  | nil => intro m _ _ i _; simp
  | cons s ss ih =>
    intro m hm hb i hi
    rw [List.foldl_cons]
    have hm2 : goodShape n (bumpCell m s.1 s.2) := goodShape_bumpCell hm s.1 s.2
    have hb2 : ∀ x ∈ ss, x.1 < n ∧ x.2 < n :=
      fun x hx => hb x (List.mem_cons_of_mem s hx)
    rw [ih (bumpCell m s.1 s.2) hm2 hb2 i hi]
    have hrow : ((bumpCell m s.1 s.2)[i]?.getD []).sum
        = (m[i]?.getD []).sum + (if s.1 == i then (1 : ℚ) else 0) := by
      have hilen : i < m.length := hm.1 ▸ hi
      rw [bumpCell, getElem?_modifyAt]
      by_cases his : i = s.1
      · have hs1 : (s.1 == i) = true := by simp [his]
        rw [if_pos his]
        rw [List.getElem?_eq_getElem hilen, Option.map_some']
        simp only [Option.getD_some]
        have hglen : s.2 < m[i].length := by
          rw [hm.2 m[i] (List.getElem_mem hilen)]
          exact (hb s (List.mem_cons_self s ss)).2
        rw [sum_modifyAt_add_one s.2 m[i] hglen, hs1]
        simp
      · have hs1 : (s.1 == i) = false := by
          simp only [beq_eq_false_iff_ne, ne_eq]
          exact fun he => his he.symm
        rw [if_neg his, hs1]
        simp
    rw [hrow, List.countP_cons]
    by_cases hsi : (s.1 == i) = true
    · rw [hsi]
      push_cast
      simp
      ring
    · rw [Bool.not_eq_true] at hsi
      rw [hsi]
      push_cast
      simp

theorem sum_map_div (l : List ℚ) (s : ℚ) :
    (l.map (fun x => x / s)).sum = l.sum / s := by
  induction l with
  | nil => simp
  | cons x xs ih =>
    rw [List.map_cons, List.sum_cons, List.sum_cons, ih, add_div]

/-- C5: after accumulating the sampled (true, guessed) index pairs and
normalizing every row by its own sum, a row whose pre-normalization sum
is positive sums to exactly 1 (floats modelled exactly as rationals),
and an all-zero normalized row can only belong to a category that was
never sampled. -/
theorem c5_confusion_rows (n : Nat) (samples : List (Nat × Nat))
    (hb : ∀ s ∈ samples, s.1 < n ∧ s.2 < n) (i : Nat) (hi : i < n) :
    (0 < ((accumConfusion n samples)[i]?.getD []).sum →
      ((normalizeRows (accumConfusion n samples))[i]?.getD []).sum = 1) ∧
    ((∀ x ∈ (normalizeRows (accumConfusion n samples))[i]?.getD [], x = 0) →
      ∀ s ∈ samples, s.1 ≠ i) := by
  have hshape : goodShape n (accumConfusion n samples) :=
    goodShape_foldl (goodShape_zerosMatrix n) samples
  have hilen : i < (accumConfusion n samples).length :=
    lt_of_lt_of_eq hi hshape.1.symm
  have hrow : (accumConfusion n samples)[i]?
      = some ((accumConfusion n samples)[i]) := List.getElem?_eq_getElem hilen
  have hnorm : (normalizeRows (accumConfusion n samples))[i]?
      = some (((accumConfusion n samples)[i]).map
          (fun x => x / ((accumConfusion n samples)[i]).sum)) := by
    unfold normalizeRows
    rw [List.getElem?_map, hrow, Option.map_some']
  constructor
  · intro hpos
    rw [hrow] at hpos
    simp only [Option.getD_some] at hpos
    rw [hnorm]
    simp only [Option.getD_some]
    rw [sum_map_div, div_self (ne_of_gt hpos)]
  · intro hzero s hs hsi
    rw [hnorm] at hzero
    simp only [Option.getD_some] at hzero
    have hsum0 : (((accumConfusion n samples)[i]).map
        (fun x => x / ((accumConfusion n samples)[i]).sum)).sum = 0 :=
      List.sum_eq_zero hzero
    have hcount : 0 < samples.countP (fun s => s.1 == i) := by
      apply List.countP_pos_iff.mpr
      exact ⟨s, hs, by simp [hsi]⟩
    have hsum : (((accumConfusion n samples))[i]?.getD []).sum
        = ((zerosMatrix n)[i]?.getD []).sum
          + (samples.countP (fun s => s.1 == i) : ℚ) :=
      rowAt_foldl_sum samples (zerosMatrix n) (goodShape_zerosMatrix n) hb i hi
    have hz : ((zerosMatrix n)[i]?.getD []).sum = 0 := by
      unfold zerosMatrix
      rw [List.getElem?_replicate, if_pos hi]
      simp
    rw [hrow] at hsum
    simp only [Option.getD_some] at hsum
    have hpos : 0 < ((accumConfusion n samples)[i]).sum := by
      rw [hsum, hz, zero_add]
      exact_mod_cast hcount
    rw [sum_map_div, div_self (ne_of_gt hpos)] at hsum0
    exact one_ne_zero hsum0

/-- C5 witness: the row facts at a concrete two-category sample list. -/
theorem c5_confusion_rows_witness :
    ((0 : ℚ) < ((accumConfusion 2 [(0, 1), (1, 1)])[0]?.getD []).sum →
      ((normalizeRows (accumConfusion 2 [(0, 1), (1, 1)]))[0]?.getD []).sum = 1) ∧
    ((∀ x ∈ (normalizeRows (accumConfusion 2 [(0, 1), (1, 1)]))[0]?.getD [], x = 0) →
      ∀ s ∈ ([(0, 1), (1, 1)] : List (Nat × Nat)), s.1 ≠ 0) :=
  c5_confusion_rows 2 [(0, 1), (1, 1)] (by decide) 0 (by decide)

theorem length_rnnForward_output (expF logF : ℚ → ℚ) (p : RNNP)
    (input hidden : List ℚ) :
    (rnnForward expF logF p input hidden).1.length
      = min p.i2o_w.length p.i2o_b.length := by
  show (logSoftmax expF logF (linear p.i2o_w p.i2o_b (input ++ hidden))).length = _
  unfold logSoftmax linear
  rw [List.length_map, List.length_zipWith]

theorem evalFoldAux (expF logF : ℚ → ℚ) (p : RNNP) :
    ∀ (lt : List (List ℚ)) (acc : Option (List ℚ) × List ℚ),
      ((lt.foldl (fun acc input =>
          let oh := rnnForward expF logF p input acc.2
          (some oh.1, oh.2)) acc).1 = acc.1 ∧ lt = [])
      ∨ (∃ out, (lt.foldl (fun acc input =>
          let oh := rnnForward expF logF p input acc.2
          (some oh.1, oh.2)) acc).1 = some out
          ∧ out.length = min p.i2o_w.length p.i2o_b.length) := by
  intro lt
  induction lt with
  | nil => intro acc; exact Or.inl ⟨rfl, rfl⟩
  | cons x xs ih =>
    intro acc
    rw [List.foldl_cons]
    rcases ih (some (rnnForward expF logF p x acc.2).1,
        (rnnForward expF logF p x acc.2).2) with ⟨heq, hnil⟩ | ⟨out, hout, hlen⟩
    · right
      refine ⟨(rnnForward expF logF p x acc.2).1, ?_, length_rnnForward_output _ _ _ _ _⟩
      exact heq
    · exact Or.inr ⟨out, hout, hlen⟩

theorem evaluate_of_ne_nil (expF logF : ℚ → ℚ) (p : RNNP)
    (lt : List (List ℚ)) (hne : lt ≠ []) :
    ∃ out, evaluate expF logF p lt = some out
      ∧ out.length = min p.i2o_w.length p.i2o_b.length := by
  rcases evalFoldAux expF logF p lt ((none : Option (List ℚ)), initHidden)
    with ⟨_, hnil⟩ | ⟨out, hout, hlen⟩
  · exact absurd hnil hne
  · exact ⟨out, hout, hlen⟩

theorem fst_lt_of_mem_enum {α : Type} :
    ∀ {l : List α} {x : Nat × α}, x ∈ l.enum → x.1 < l.length := by
  intro l x hx
  have := List.mem_enum (x := x.2) (i := x.1) (by simpa using hx)
  exact this.1

theorem topk_spec (k : Nat) (xs : List ℚ) (hk : k ≤ xs.length) :
    ∃ pairs, topk k xs = some pairs
      ∧ pairs.length = k
      ∧ List.Pairwise geVal pairs
      ∧ ∀ pr ∈ pairs, pr.1 < xs.length := by
  refine ⟨(xs.enum.insertionSort geVal).take k, ?_, ?_, ?_, ?_⟩
  · unfold topk
    rw [if_pos hk]
  · rw [List.length_take, List.length_insertionSort, List.enum_length]
    exact Nat.min_eq_left hk
  · exact List.Pairwise.sublist (List.take_sublist _ _)
      (List.sorted_insertionSort geVal _)
  · intro pr hpr
    have h1 : pr ∈ xs.enum.insertionSort geVal :=
      List.take_subset _ _ hpr
    have h2 : pr ∈ xs.enum := (List.mem_insertionSort geVal).mp h1
    exact fst_lt_of_mem_enum h2

theorem mapScoreCat_spec (cats : List String) :
    ∀ (pairs : List (Nat × ℚ)), (∀ pr ∈ pairs, pr.1 < cats.length) →
      mapScoreCat cats pairs
        = some (pairs.map (fun pr => (pr.2, cats.getD pr.1 ""))) := by
  intro pairs
  induction pairs with
  | nil => intro _; rfl
  | cons pr rest ih =>
    intro hb
    have h1 : pr.1 < cats.length := hb pr (List.mem_cons_self pr rest)
    have h2 : cats[pr.1]? = some (cats.getD pr.1 "") := by
      rw [List.getD_eq_getElem?_getD, List.getElem?_eq_getElem h1]
      rfl
    have h3 := ih (fun x hx => hb x (List.mem_cons_of_mem pr hx))
    show (match cats[pr.1]? with
      | none => none
      | some cname => (mapScoreCat cats rest).map (fun tl => (pr.2, cname) :: tl))
        = _
    rw [h2, h3]
    rfl

/-- C1 counterexample: with a two-category model (the spec's own
synthetic two-category corpus shape, all-zero weights of the script's
sizes), `predict("a", 3)` does not return `min(3, 2) = 2` entries —
`torch.topk` rejects `k` larger than the output dimension, so the call
fails (`none`). -/
theorem c1_predict_counterexample :
    predict id id exampleParams exampleCats "a" 3 = none
      ∧ min 3 exampleCats.length = 2 := by
  constructor
  · decide
  · rfl

/-- C1 (amended): for every nonempty input string, parameter state whose
output layer is sized to the category count, and `k ≤ category_count`,
the predictions list built by `predict` has exactly `min(k,
category_count) = k` (score, category) entries with non-increasing
scores; for `k > category_count` the call raises instead of capping
(see the counterexample), and `predict` also fails on the empty
string. -/
theorem c1_predict_topk_amended (expF logF : ℚ → ℚ) (p : RNNP)
    (cats : List String) (line : String) (k : Nat)
    (hne : lineToTensor line ≠ [])
    (hw : p.i2o_w.length = cats.length)
    (hb : p.i2o_b.length = cats.length)
    (hk : k ≤ cats.length) :
    ∃ res, predict expF logF p cats line k = some res
      ∧ res.length = min k cats.length
      ∧ List.Pairwise (fun a b : ℚ × String => b.1 ≤ a.1) res := by
  rcases evaluate_of_ne_nil expF logF p (lineToTensor line) hne
    with ⟨out, hout, hlen⟩
  have hol : out.length = cats.length := by
    rw [hlen, hw, hb, Nat.min_self]
  rcases topk_spec k out (hol ▸ hk) with ⟨pairs, htop, hplen, hsorted, hbnd⟩
  have hbnd2 : ∀ pr ∈ pairs, pr.1 < cats.length :=
    fun pr hpr => hol ▸ hbnd pr hpr
  have hmap := mapScoreCat_spec cats pairs hbnd2
  refine ⟨pairs.map (fun pr => (pr.2, cats.getD pr.1 "")), ?_, ?_, ?_⟩
  · unfold predict
    rw [hout, Option.some_bind, htop, Option.some_bind, hmap]
  · rw [List.length_map, hplen, Nat.min_eq_left hk]
  · exact List.Pairwise.map _ (fun a b hab => hab) hsorted

/-- C1 witness: the amended statement at the concrete two-category model,
input `"a"` and `k = 2`. -/
theorem c1_predict_topk_witness :
    ∃ res, predict id id exampleParams exampleCats "a" 2 = some res
      ∧ res.length = min 2 exampleCats.length
      ∧ List.Pairwise (fun a b : ℚ × String => b.1 ≤ a.1) res :=
  c1_predict_topk_amended id id exampleParams exampleCats "a" 2
    (by decide) (by decide) (by decide) (by decide)

end NameClassifier
